import Mathlib

/-!
# Connect Four win-detection engine (`cf/cf.go`)

A shallow embedding of the Go package `cf`: board geometry (`posnIndex`,
`posnBit`, `posnBitCheck`), the window builders (`bmHorz`, `bmVert`, `bmDiag0`,
`bmDiag1`), the win-mask table (`genWins`, `winSet`) and the game state
(`Game`, `NewGame`, `Add`, `Win`).

Go `int` is modelled as `Int` (64-bit wrap made explicit where arithmetic is
performed), `uint64` as `Nat` with an explicit `% 2^64` at the shift, errors as
`Except String`, and run-time panics as a separate outcome.
-/

namespace CF

/-! ## Constants -/

def nRows : Int := 6
def nCols : Int := 7
def nPlayers : Int := 2
def nConnect : Nat := 4

/-- Two's-complement wrap of a mathematical integer into the range of a 64-bit Go `int`. -/
def wrap64 (x : Int) : Int :=
  (x + 9223372036854775808) % 18446744073709551616 - 9223372036854775808

/-! ## Board geometry -/

/-- Go `posnIndex`: `(row * nCols) + col` in 64-bit `int` arithmetic. -/
def posnIndex (row col : Int) : Int :=
  wrap64 (wrap64 (row * nCols) + col)

/-- Go `posnBit`: `1 << posnIndex(row, col)` as a `uint64`.  Every call site of the
program passes an on-board position (index in `[0,42)`); Go would panic on a negative
shift count, which is therefore never produced. -/
def posnBit (row col : Int) : Nat :=
  (1 <<< (posnIndex row col).toNat) % 18446744073709551616

/-- Go `posnBitCheck`: the bit of a position, or an error when the row or the column is
off the board. -/
def posnBitCheck (row col : Int) : Except String Nat :=
  if row < 0 ∨ row ≥ nRows then .error "invalid row"
  else if col < 0 ∨ col ≥ nCols then .error "invalid col"
  else .ok (posnBit row col)

/-! ## Window builders -/

/-- Go `bmHorz`: left to right, cells `(row, col+i)`. -/
def bmHorz (row col : Int) : Except String Nat :=
  (List.range nConnect).foldlM
    (fun mask (i : Nat) => do
      let bit ← posnBitCheck row (col + i)
      pure (mask ||| bit)) 0

/-- Go `bmVert`: top to bottom, cells `(row-i, col)`. -/
def bmVert (row col : Int) : Except String Nat :=
  (List.range nConnect).foldlM
    (fun mask (i : Nat) => do
      let bit ← posnBitCheck (row - i) col
      pure (mask ||| bit)) 0

/-- Go `bmDiag0`: bottom left to top right, cells `(row+i, col+i)`. -/
def bmDiag0 (row col : Int) : Except String Nat :=
  (List.range nConnect).foldlM
    (fun mask (i : Nat) => do
      let bit ← posnBitCheck (row + i) (col + i)
      pure (mask ||| bit)) 0

/-- Go `bmDiag1`: top left to bottom right, cells `(row-i, col+i)`. -/
def bmDiag1 (row col : Int) : Except String Nat :=
  (List.range nConnect).foldlM
    (fun mask (i : Nat) => do
      let bit ← posnBitCheck (row - i) (col + i)
      pure (mask ||| bit)) 0

/-! ## The win-mask table -/

/-- The Go statement `wins[idx] = append(wins[idx], mask)`.  In `genWins` the index is
`posnIndex row col` with `row < 6` and `col < 7`, always inside the 42 entries, so the
out-of-range panic of Go cannot occur there. -/
def appendAt (wins : List (List Nat)) (idx : Int) (mask : Nat) : List (List Nat) :=
  wins.set idx.toNat (wins.getD idx.toNat [] ++ [mask])

/-- The Go statement `if err == nil { wins[idx] = append(wins[idx], mask) }`. -/
def appendIfOk (wins : List (List Nat)) (idx : Int) (r : Except String Nat) :
    List (List Nat) :=
  match r with
  | .ok mask => appendAt wins idx mask
  | .error _ => wins

/-- Body of the inner loop of Go `genWins` for one `(row, col)`. -/
def genWinsAt (wins : List (List Nat)) (row col : Int) : List (List Nat) :=
  let idx := posnIndex row col
  -- horizontal
  let wins := (List.range nConnect).foldl
    (fun w (i : Nat) => appendIfOk w idx (bmHorz row (col - i))) wins
  -- vertical
  let wins := appendIfOk wins idx (bmVert row col)
  -- diagonal (bottom left to top right)
  let wins := (List.range nConnect).foldl
    (fun w (i : Nat) => appendIfOk w idx (bmDiag0 (row - i) (col - i))) wins
  -- diagonal (top left to bottom right)
  (List.range nConnect).foldl
    (fun w (i : Nat) => appendIfOk w idx (bmDiag1 (row + i) (col - i))) wins

/-- Go `genWins`: the win bitmasks for each position. -/
def genWins : List (List Nat) :=
  (List.range nRows.toNat).foldl
    (fun wins (row : Nat) =>
      (List.range nCols.toNat).foldl (fun wins (col : Nat) => genWinsAt wins row col) wins)
    (List.replicate (nRows * nCols).toNat [])

/-- Go package variable `winSet`, set by `init` to `genWins()`. -/
def winSet : List (List Nat) := genWins

/-! ## Game state -/

/-- Go `Game`: the player bit fields, the height of each column, the index of the last
move. -/
structure Game where
  player : Fin 2 → Nat
  colHeight : Fin 7 → Int
  last : Int

/-- Go `NewGame`: the zero value of `Game`. -/
def NewGame : Game :=
  { player := fun _ => 0, colHeight := fun _ => 0, last := 0 }

/-- Outcome of a call of `Add`: it returns (with the state it leaves behind and the
error value, `none` for `nil`), or the Go run time panics. -/
inductive AddResult where
  | returned (g : Game) (err : Option String)
  | panicked

/-- Go `Game.Add`.  The two guarded returns leave the state untouched; afterwards
`g.player[player]` panics on an index outside `[0,2)` and `1 << g.last` panics on a
negative shift count. -/
def Add (g : Game) (player col : Int) : AddResult :=
  if hc : col < 0 ∨ col ≥ nCols then .returned g (some "invalid col")
  else
    let c : Fin 7 := ⟨col.toNat, by simp [nCols] at hc; omega⟩
    if g.colHeight c ≥ nRows then .returned g (some "no col space")
    else
      let last := posnIndex (g.colHeight c) col
      if hp : player < 0 ∨ player ≥ nPlayers then .panicked
      else if last < 0 then .panicked
      else
        let p : Fin 2 := ⟨player.toNat, by simp [nPlayers] at hp; omega⟩
        .returned
          { player := fun q =>
              if q = p then g.player p ||| (1 <<< last.toNat) % 18446744073709551616
              else g.player q
            colHeight := fun d => if d = c then g.colHeight c + 1 else g.colHeight d
            last := last }
          none

/-- The loop of Go `Game.Win` over the masks of one table entry; `none` is the panic of
`g.player[player]` on an index outside `[0,2)`. -/
def winLoop (g : Game) (player : Int) : List Nat → Option Bool
  | [] => some false
  | mask :: rest =>
    if hp : player < 0 ∨ player ≥ nPlayers then none
    else
      let p : Fin 2 := ⟨player.toNat, by simp [nPlayers] at hp; omega⟩
      if g.player p &&& mask = mask then some true else winLoop g player rest

/-- Go `Game.Win`; `none` is a run-time panic (`winSet[g.last]` out of range, or the
player index out of range). -/
def Win (g : Game) (player : Int) : Option Bool :=
  if g.last < 0 then none
  else
    match winSet.get? g.last.toNat with
    | none => none
    | some masks => winLoop g player masks

/-! ## Specification-side vocabulary -/

/-- A position of the 6x7 board: `0 ≤ row < 6` and `0 ≤ col < 7`. -/
def onBoard (row col : Int) : Prop :=
  0 ≤ row ∧ row < 6 ∧ 0 ≤ col ∧ col < 7

instance (row col : Int) : Decidable (onBoard row col) := by
  unfold onBoard; infer_instance

/-- Linear index `row * 7 + col` of a position, as a bit number. -/
def cellIdx (row col : Int) : Nat := (row * 7 + col).toNat

/-- The common shape of the four window builders: a loop over `i = 0..3` that ORs the
checked bits of the cells `cell i`. -/
def bmLoop (cell : Nat → Int × Int) : Except String Nat :=
  (List.range nConnect).foldlM
    (fun mask (i : Nat) => do
      let bit ← posnBitCheck (cell i).1 (cell i).2
      pure (mask ||| bit)) 0

/-- Mask of a window given by its four cells. -/
def windowMask (cell : Nat → Int × Int) : Nat :=
  2 ^ cellIdx (cell 0).1 (cell 0).2 ||| 2 ^ cellIdx (cell 1).1 (cell 1).2 |||
    2 ^ cellIdx (cell 2).1 (cell 2).2 ||| 2 ^ cellIdx (cell 3).1 (cell 3).2

/-- The masks that the body of `genWins` appends for one anchor `(row, col)`, in order. -/
def winsAt (row col : Int) : List Nat :=
  (List.range nConnect).filterMap (fun (i : Nat) => (bmHorz row (col - i)).toOption) ++
  (bmVert row col).toOption.toList ++
  (List.range nConnect).filterMap (fun (i : Nat) => (bmDiag0 (row - i) (col - i)).toOption) ++
  (List.range nConnect).filterMap (fun (i : Nat) => (bmDiag1 (row + i) (col - i)).toOption)

/-- Bitboard `b` holds a piece on the cell `(row, col)`, which is on the board. -/
def occupied (b : Nat) (row col : Int) : Prop :=
  onBoard row col ∧ b.testBit (cellIdx row col) = true

instance (b : Nat) (row col : Int) : Decidable (occupied b row col) := by
  unfold occupied; infer_instance

/-- The four line directions as (row step, column step): along a row, along a column,
rising diagonal, falling diagonal. -/
def lineDirs : List (Int × Int) := [(0, 1), (1, 0), (1, 1), (-1, 1)]

def boardRows : List Int := [0, 1, 2, 3, 4, 5]
def boardCols : List Int := [0, 1, 2, 3, 4, 5, 6]

/-- The `k`-th of the consecutive cells that start at `(r0, c0)` and step by `d`. -/
def lineCell (r0 c0 : Int) (d : Int × Int) (k : Nat) : Int × Int :=
  (r0 + k * d.1, c0 + k * d.2)

/-- Bitboard `b` holds four consecutive cells in one row, one column or one diagonal
(rising or falling), all on the board, one of which is `(row, col)`. -/
def fourInLineThrough (b : Nat) (row col : Int) : Prop :=
  ∃ d ∈ lineDirs, ∃ r0 ∈ boardRows, ∃ c0 ∈ boardCols,
    (∀ k ∈ List.range 4, occupied b (lineCell r0 c0 d k).1 (lineCell r0 c0 d k).2) ∧
    (∃ k ∈ List.range 4, lineCell r0 c0 d k = (row, col))

instance (b : Nat) (row col : Int) : Decidable (fourInLineThrough b row col) := by
  unfold fourInLineThrough; infer_instance

/-- States reachable from `NewGame` by calls of `Add` with player 0 or 1 that return,
with or without an error. -/
inductive Reachable : Game → Prop where
  | init : Reachable NewGame
  | add (g g' : Game) (player col : Int) (e : Option String) :
      Reachable g → (player = 0 ∨ player = 1) → Add g player col = .returned g' e →
      Reachable g'

/-- Invariant of the reachable states: heights within `[0,6]`, a cell is occupied exactly
when it lies below its column's height, the bitboards are disjoint, `last` is a valid
index. -/
structure Inv (g : Game) : Prop where
  height_nonneg : ∀ c, 0 ≤ g.colHeight c
  height_le : ∀ c, g.colHeight c ≤ 6
  gravity : ∀ (r : Int) (c : Fin 7), 0 ≤ r → r < 6 →
    ((g.player 0 ||| g.player 1).testBit (cellIdx r c.val) = true ↔ r < g.colHeight c)
  disjoint : g.player 0 &&& g.player 1 = 0
  last_range : 0 ≤ g.last ∧ g.last < 42

/-- The state that a successful `Add` of player `p` in column `c` leaves behind
(see `Add_ok`). -/
def placed (g : Game) (p : Fin 2) (c : Fin 7) : Game :=
  { player := fun q =>
      if q = p then g.player p ||| 2 ^ cellIdx (g.colHeight c) c.val else g.player q
    colHeight := fun d => if d = c then g.colHeight c + 1 else g.colHeight d
    last := g.colHeight c * 7 + c.val }

/-- The state after player 0 has played columns 0, 1 and 2 of the empty board. -/
def threeInRow : Game :=
  placed (placed (placed NewGame 0 0) 0 1) 0 2

/-- A concrete state with column 0 full: six pieces, the players alternating. -/
def fullColumnGame : Game :=
  { player := fun q => if q = 0 then 2 ^ 0 ||| 2 ^ 14 ||| 2 ^ 28 else 2 ^ 7 ||| 2 ^ 21 ||| 2 ^ 35
    colHeight := fun d => if d = 0 then 6 else 0
    last := 35 }

/-- Number of set bits of a `uint64` value. -/
def popCount (m : Nat) : Nat :=
  ((List.range 64).filter (fun i => m.testBit i)).length

/-- The loop of Go `Game.Win`, instrumented with the number of mask comparisons
`g.player[player]&mask == mask` it evaluates before it returns. -/
def winLoopCount (g : Game) (player : Int) : List Nat → Option (Bool × Nat)
  | [] => some (false, 0)
  | mask :: rest =>
    if hp : player < 0 ∨ player ≥ nPlayers then none
    else
      let p : Fin 2 := ⟨player.toNat, by simp [nPlayers] at hp; omega⟩
      if g.player p &&& mask = mask then some (true, 1)
      else (winLoopCount g player rest).map (fun bn => (bn.1, bn.2 + 1))

/-- Go `Game.Win`, instrumented with the number of mask comparisons. -/
def WinCount (g : Game) (player : Int) : Option (Bool × Nat) :=
  if g.last < 0 then none
  else
    match winSet.get? g.last.toNat with
    | none => none
    | some masks => winLoopCount g player masks

/-- The loop of Go `Game.Win` in state-passing form: the receiver `g *Game` is threaded
through and handed back with the result.  The body only reads `g.last` and
`g.player[player]` and holds no assignment, so every step passes the state on as it is. -/
def winLoopSt (g : Game) (player : Int) : List Nat → Option (Bool × Game)
  | [] => some (false, g)
  | mask :: rest =>
    if hp : player < 0 ∨ player ≥ nPlayers then none
    else
      let p : Fin 2 := ⟨player.toNat, by simp [nPlayers] at hp; omega⟩
      if g.player p &&& mask = mask then some (true, g) else winLoopSt g player rest

/-- Go `Game.Win` in state-passing form: the result and the state after the call. -/
def WinSt (g : Game) (player : Int) : Option (Bool × Game) :=
  if g.last < 0 then none
  else
    match winSet.get? g.last.toNat with
    | none => none
    | some masks => winLoopSt g player masks

/-- The results of `n` consecutive calls of `Win(player)`, each on the state the previous
one left, and the final state; `none` when a call panics. -/
def winRepeat : Nat → Game → Int → Option (List Bool × Game)
  | 0, g, _ => some ([], g)
  | n + 1, g, player =>
    match WinSt g player with
    | none => none
    | some (b, g1) =>
      match winRepeat n g1 player with
      | none => none
      | some (bs, g2) => some (b :: bs, g2)

/-- The candidate windows of an anchor `(r, c)` as lists of cells, in the order of the
specification: four horizontal, one vertical, four rising-diagonal, four
falling-diagonal. -/
def specWindows (r c : Int) : List (List (Int × Int)) :=
  (List.range 4).map
    (fun (i : Nat) => [(r, c - i), (r, c - i + 1), (r, c - i + 2), (r, c - i + 3)]) ++
  [[(r, c), (r - 1, c), (r - 2, c), (r - 3, c)]] ++
  (List.range 4).map
    (fun (i : Nat) => (List.range 4).map (fun (k : Nat) => (r - i + k, c - i + k))) ++
  (List.range 4).map
    (fun (i : Nat) => (List.range 4).map (fun (k : Nat) => (r + i - k, c - i + k)))

/-- The OR of the bits `1 << (row*7+col)` of the cells of a window. -/
def specMask (w : List (Int × Int)) : Nat :=
  w.foldl (fun m cell => m ||| 1 <<< (cell.1 * 7 + cell.2).toNat) 0

/-- The table entry of an anchor as the specification describes it: the candidate
windows whose four cells are all on the board, each as its mask. -/
def specEntry (r c : Int) : List Nat :=
  ((specWindows r c).filter
    (fun w => w.all (fun cell => decide (onBoard cell.1 cell.2)))).map specMask

/-- The naive full-board check: bitboard `b` holds some four consecutive on-board cells
in a row, a column or a diagonal, anywhere on the board. -/
def fourInLineAnywhere (b : Nat) : Prop :=
  ∃ d ∈ lineDirs, ∃ r0 ∈ boardRows, ∃ c0 ∈ boardCols,
    ∀ k ∈ List.range 4, occupied b (lineCell r0 c0 d k).1 (lineCell r0 c0 d k).2

instance (b : Nat) : Decidable (fourInLineAnywhere b) := by
  unfold fourInLineAnywhere; infer_instance

/-- The masks of the vertical windows of the board: four consecutive cells
`(r0,c0) .. (r0+3,c0)` of one column, for `r0` in `0..2` and `c0` in `0..6`. -/
def vertMasks : List Nat :=
  (List.range 3).flatMap (fun r0 => (List.range 7).map (fun c0 =>
    2 ^ (r0 * 7 + c0) ||| 2 ^ ((r0 + 1) * 7 + c0) ||| 2 ^ ((r0 + 2) * 7 + c0) |||
      2 ^ ((r0 + 3) * 7 + c0)))

/-- The mask `m` is that of a vertical window of the board. -/
def isVertMask (m : Nat) : Bool := vertMasks.contains m

/-! ## Geometry lemmas -/

theorem wrap64_small (x : Int) (h1 : -9223372036854775808 ≤ x) (h2 : x < 9223372036854775808) :
    wrap64 x = x := by
  unfold wrap64; omega

theorem posnIndex_small (row col : Int) (hr1 : -1000 ≤ row) (hr2 : row ≤ 1000)
    (hc1 : -1000 ≤ col) (hc2 : col ≤ 1000) : posnIndex row col = row * 7 + col := by
  unfold posnIndex nCols
  rw [wrap64_small (row * 7) (by omega) (by omega), wrap64_small _ (by omega) (by omega)]

theorem shl_one_small (n : Nat) (h : n < 64) :
    (1 <<< n) % 18446744073709551616 = 2 ^ n := by
  rw [Nat.one_shiftLeft]
  apply Nat.mod_eq_of_lt
  calc 2 ^ n < 2 ^ 64 := Nat.pow_lt_pow_right (by decide) h
    _ = 18446744073709551616 := by norm_num

theorem posnBit_onBoard (row col : Int) (h : onBoard row col) :
    posnBit row col = 2 ^ cellIdx row col := by
  obtain ⟨h1, h2, h3, h4⟩ := h
  unfold posnBit
  rw [posnIndex_small row col (by omega) (by omega) (by omega) (by omega)]
  exact shl_one_small _ (by omega)

theorem posnBitCheck_onBoard (row col : Int) (h : onBoard row col) :
    posnBitCheck row col = .ok (2 ^ cellIdx row col) := by
  have h' := h
  obtain ⟨h1, h2, h3, h4⟩ := h
  unfold posnBitCheck nRows nCols
  rw [if_neg (by omega), if_neg (by omega), posnBit_onBoard row col h']

theorem posnBitCheck_offBoard (row col : Int) (h : ¬ onBoard row col) :
    ∃ e, posnBitCheck row col = .error e := by
  unfold posnBitCheck nRows nCols
  unfold onBoard at h
  by_cases hr : row < 0 ∨ row ≥ 6
  · exact ⟨_, if_pos hr⟩
  · rw [if_neg hr, if_pos (by omega)]
    exact ⟨_, rfl⟩

theorem bmHorz_eq (row col : Int) : bmHorz row col = bmLoop (fun i => (row, col + i)) := rfl
theorem bmVert_eq (row col : Int) : bmVert row col = bmLoop (fun i => (row - i, col)) := rfl
theorem bmDiag0_eq (row col : Int) :
    bmDiag0 row col = bmLoop (fun i => (row + i, col + i)) := rfl
theorem bmDiag1_eq (row col : Int) :
    bmDiag1 row col = bmLoop (fun i => (row - i, col + i)) := rfl

theorem range_nConnect : List.range nConnect = [0, 1, 2, 3] := by decide

theorem bmLoop_ok (cell : Nat → Int × Int)
    (h : ∀ i, i < 4 → onBoard (cell i).1 (cell i).2) :
    bmLoop cell = .ok (windowMask cell) := by
  unfold bmLoop
  rw [range_nConnect]
  simp only [List.foldlM, posnBitCheck_onBoard _ _ (h 0 (by decide)),
    posnBitCheck_onBoard _ _ (h 1 (by decide)), posnBitCheck_onBoard _ _ (h 2 (by decide)),
    posnBitCheck_onBoard _ _ (h 3 (by decide))]
  simp [windowMask, bind, Except.bind, pure, Except.pure]

theorem bmLoop_error (cell : Nat → Int × Int) (i : Nat) (hi : i < 4)
    (h : ¬ onBoard (cell i).1 (cell i).2) : ∃ e, bmLoop cell = .error e := by
  unfold bmLoop
  rw [range_nConnect]
  by_cases h0 : onBoard (cell 0).1 (cell 0).2
  swap
  · obtain ⟨e, he⟩ := posnBitCheck_offBoard _ _ h0
    exact ⟨e, by simp [List.foldlM, he, bind, Except.bind]⟩
  by_cases h1 : onBoard (cell 1).1 (cell 1).2
  swap
  · obtain ⟨e, he⟩ := posnBitCheck_offBoard _ _ h1
    exact ⟨e, by simp [List.foldlM, he, posnBitCheck_onBoard _ _ h0, bind, Except.bind, pure,
      Except.pure]⟩
  by_cases h2 : onBoard (cell 2).1 (cell 2).2
  swap
  · obtain ⟨e, he⟩ := posnBitCheck_offBoard _ _ h2
    exact ⟨e, by simp [List.foldlM, he, posnBitCheck_onBoard _ _ h0,
      posnBitCheck_onBoard _ _ h1, bind, Except.bind, pure, Except.pure]⟩
  by_cases h3 : onBoard (cell 3).1 (cell 3).2
  swap
  · obtain ⟨e, he⟩ := posnBitCheck_offBoard _ _ h3
    exact ⟨e, by simp [List.foldlM, he, posnBitCheck_onBoard _ _ h0,
      posnBitCheck_onBoard _ _ h1, posnBitCheck_onBoard _ _ h2, bind, Except.bind, pure,
      Except.pure]⟩
  exfalso
  have : i = 0 ∨ i = 1 ∨ i = 2 ∨ i = 3 := by omega
  rcases this with rfl | rfl | rfl | rfl <;> contradiction

theorem bmLoop_ok_iff (cell : Nat → Int × Int) (m : Nat) :
    bmLoop cell = .ok m ↔
      (∀ i, i < 4 → onBoard (cell i).1 (cell i).2) ∧ m = windowMask cell := by
  constructor
  · intro hm
    have hall : ∀ i, i < 4 → onBoard (cell i).1 (cell i).2 := by
      intro i hi
      by_contra hn
      obtain ⟨e, he⟩ := bmLoop_error cell i hi hn
      rw [he] at hm
      cases hm
    refine ⟨hall, ?_⟩
    rw [bmLoop_ok cell hall] at hm
    injection hm with hm
    exact hm.symm
  · rintro ⟨hall, rfl⟩
    exact bmLoop_ok cell hall

/-! ## Bit lemmas -/

theorem and_two_pow_eq_iff (b n : Nat) : b &&& 2 ^ n = 2 ^ n ↔ b.testBit n = true := by
  constructor
  · intro h
    have h2 := congrArg (fun x => x.testBit n) h
    simpa [Nat.testBit_two_pow_self] using h2
  · intro h
    apply Nat.eq_of_testBit_eq
    intro i
    rw [Nat.testBit_and, Nat.testBit_two_pow]
    by_cases hi : n = i
    · subst hi; simp [h]
    · simp [hi]

theorem and_or_eq_iff (b x y : Nat) :
    b &&& (x ||| y) = x ||| y ↔ b &&& x = x ∧ b &&& y = y := by
  constructor
  · intro h
    have key : ∀ i, (b.testBit i && (x.testBit i || y.testBit i)) =
        (x.testBit i || y.testBit i) := by
      intro i
      have h2 := congrArg (fun z => z.testBit i) h
      simpa using h2
    constructor
    · apply Nat.eq_of_testBit_eq
      intro i
      have := key i
      rw [Nat.testBit_and]
      cases hb : b.testBit i <;> cases hx : x.testBit i <;> simp_all
    · apply Nat.eq_of_testBit_eq
      intro i
      have := key i
      rw [Nat.testBit_and]
      cases hb : b.testBit i <;> cases hy : y.testBit i <;> simp_all
  · rintro ⟨hx, hy⟩
    rw [Nat.and_or_distrib_left, hx, hy]

theorem and_windowMask_iff (b : Nat) (cell : Nat → Int × Int) :
    b &&& windowMask cell = windowMask cell ↔
      ∀ i, i < 4 → b.testBit (cellIdx (cell i).1 (cell i).2) = true := by
  unfold windowMask
  rw [and_or_eq_iff, and_or_eq_iff, and_or_eq_iff, and_two_pow_eq_iff, and_two_pow_eq_iff,
    and_two_pow_eq_iff, and_two_pow_eq_iff]
  constructor
  · rintro ⟨⟨⟨h0, h1⟩, h2⟩, h3⟩ i hi
    have : i = 0 ∨ i = 1 ∨ i = 2 ∨ i = 3 := by omega
    rcases this with rfl | rfl | rfl | rfl <;> assumption
  · intro h
    exact ⟨⟨⟨h 0 (by decide), h 1 (by decide)⟩, h 2 (by decide)⟩, h 3 (by decide)⟩

/-- A stored window is matched by a bitboard exactly when its four cells are occupied. -/
theorem window_match_iff (b : Nat) (cell : Nat → Int × Int) :
    (∃ m, bmLoop cell = .ok m ∧ b &&& m = m) ↔
      ∀ i, i < 4 → occupied b (cell i).1 (cell i).2 := by
  constructor
  · rintro ⟨m, hm, hb⟩ i hi
    obtain ⟨hall, rfl⟩ := (bmLoop_ok_iff cell m).1 hm
    exact ⟨hall i hi, (and_windowMask_iff b cell).1 hb i hi⟩
  · intro h
    refine ⟨windowMask cell, bmLoop_ok cell (fun i hi => (h i hi).1), ?_⟩
    exact (and_windowMask_iff b cell).2 (fun i hi => (h i hi).2)

/-! ## The table, entry by entry -/

set_option maxRecDepth 1000000 in
theorem winSet_entry : ∀ (r : Fin 6) (c : Fin 7),
    winSet.get? (r.val * 7 + c.val) = some (winsAt (r.val : Int) (c.val : Int)) := by
  intro r c
  fin_cases r <;> fin_cases c <;> rfl

theorem winSet_onBoard (row col : Int) (h : onBoard row col) :
    winSet.get? (cellIdx row col) = some (winsAt row col) := by
  obtain ⟨h1, h2, h3, h4⟩ := h
  have key := winSet_entry ⟨row.toNat, by omega⟩ ⟨col.toNat, by omega⟩
  have e : cellIdx row col = row.toNat * 7 + col.toNat := by unfold cellIdx; omega
  rw [e]
  have er : ((row.toNat : Nat) : Int) = row := Int.toNat_of_nonneg h1
  have ec : ((col.toNat : Nat) : Int) = col := Int.toNat_of_nonneg h3
  dsimp only at key
  rw [er, ec] at key
  exact key

theorem toOption_eq_some (r : Except String Nat) (m : Nat) :
    r.toOption = some m ↔ r = .ok m := by
  cases r <;> simp [Except.toOption]

theorem mem_winsAt (row col : Int) (m : Nat) :
    m ∈ winsAt row col ↔
      (∃ i : Nat, i < 4 ∧ bmHorz row (col - i) = .ok m) ∨ bmVert row col = .ok m ∨
      (∃ i : Nat, i < 4 ∧ bmDiag0 (row - i) (col - i) = .ok m) ∨
      (∃ i : Nat, i < 4 ∧ bmDiag1 (row + i) (col - i) = .ok m) := by
  unfold winsAt
  simp only [List.mem_append, List.mem_filterMap, List.mem_range, Option.mem_toList,
    Option.mem_def, toOption_eq_some, nConnect, or_assoc]

/-! ## Table lookup against the geometric description -/

theorem mem_boardRows (r : Int) : r ∈ boardRows ↔ 0 ≤ r ∧ r < 6 := by
  simp only [boardRows, List.mem_cons, List.mem_singleton, List.mem_nil_iff, or_false]
  omega

theorem mem_boardCols (c : Int) : c ∈ boardCols ↔ 0 ≤ c ∧ c < 7 := by
  simp only [boardCols, List.mem_cons, List.mem_singleton, List.mem_nil_iff, or_false]
  omega

theorem occupied_congr (b : Nat) {r r' c c' : Int} (hr : r = r') (hc : c = c')
    (h : occupied b r c) : occupied b r' c' := by
  subst hr; subst hc; exact h

theorem fourInLine_intro (b : Nat) (row col : Int) (d : Int × Int) (hd : d ∈ lineDirs)
    (r0 c0 : Int) (hocc : ∀ k : Nat, k < 4 → occupied b (r0 + k * d.1) (c0 + k * d.2))
    (i : Nat) (hi : i < 4) (hr : r0 + i * d.1 = row) (hc : c0 + i * d.2 = col) :
    fourInLineThrough b row col := by
  have h0 := (hocc 0 (by decide)).1
  simp only [Nat.cast_zero, zero_mul, add_zero] at h0
  refine ⟨d, hd, r0, (mem_boardRows r0).2 ⟨h0.1, h0.2.1⟩, c0,
    (mem_boardCols c0).2 ⟨h0.2.2.1, h0.2.2.2⟩, ?_, ?_⟩
  · intro k hk
    exact hocc k (List.mem_range.1 hk)
  · exact ⟨i, List.mem_range.2 hi, by simp only [lineCell, hr, hc]⟩

theorem fourInLine_elim (b : Nat) (row col : Int) (h : fourInLineThrough b row col) :
    ∃ d ∈ lineDirs, ∃ (r0 c0 : Int) (i : Nat), i < 4 ∧
      (∀ k : Nat, k < 4 → occupied b (r0 + k * d.1) (c0 + k * d.2)) ∧
      r0 + i * d.1 = row ∧ c0 + i * d.2 = col := by
  obtain ⟨d, hd, r0, _, c0, _, hocc, i, hi, hcell⟩ := h
  refine ⟨d, hd, r0, c0, i, List.mem_range.1 hi, ?_, ?_, ?_⟩
  · intro k hk
    exact hocc k (List.mem_range.2 hk)
  · exact congrArg Prod.fst hcell
  · exact congrArg Prod.snd hcell

/-- Core of the win query: for an on-board anchor with no piece of the bitboard above it
in its column, some stored mask of the anchor is covered by the bitboard exactly when the
bitboard holds four in a line through the anchor. -/
theorem winsAt_match_iff (b : Nat) (row col : Int)
    (hgrav : ∀ r : Int, row < r → ¬ occupied b r col) :
    (∃ m ∈ winsAt row col, b &&& m = m) ↔ fourInLineThrough b row col := by
  constructor
  · rintro ⟨m, hm, hbm⟩
    rw [mem_winsAt] at hm
    rcases hm with ⟨i, hi, h⟩ | h | ⟨i, hi, h⟩ | ⟨i, hi, h⟩
    · rw [bmHorz_eq] at h
      have occ := (window_match_iff b _).1 ⟨m, h, hbm⟩
      refine fourInLine_intro b row col (0, 1) (by simp [lineDirs]) row (col - i) ?_ i hi
        (by simp) (by simp)
      intro k hk
      exact occupied_congr b (by simp) (by simp) (occ k hk)
    · rw [bmVert_eq] at h
      have occ := (window_match_iff b _).1 ⟨m, h, hbm⟩
      refine fourInLine_intro b row col (1, 0) (by simp [lineDirs]) (row - 3) col ?_ 3
        (by decide) (by simp) (by simp)
      intro k hk
      refine occupied_congr b ?_ ?_ (occ (3 - k) (by omega))
      · dsimp only; omega
      · simp
    · rw [bmDiag0_eq] at h
      have occ := (window_match_iff b _).1 ⟨m, h, hbm⟩
      refine fourInLine_intro b row col (1, 1) (by simp [lineDirs]) (row - i) (col - i) ?_ i hi
        (by simp) (by simp)
      intro k hk
      exact occupied_congr b (by simp) (by simp) (occ k hk)
    · rw [bmDiag1_eq] at h
      have occ := (window_match_iff b _).1 ⟨m, h, hbm⟩
      refine fourInLine_intro b row col (-1, 1) (by simp [lineDirs]) (row + i) (col - i) ?_ i hi
        (by simp) (by simp)
      intro k hk
      refine occupied_congr b ?_ ?_ (occ k hk)
      · dsimp only; omega
      · simp
  · intro h
    obtain ⟨d, hd, r0, c0, i, hi, hocc, hr, hc⟩ := fourInLine_elim b row col h
    simp only [lineDirs, List.mem_cons, List.mem_singleton, List.mem_nil_iff, or_false] at hd
    rcases hd with rfl | rfl | rfl | rfl
    · dsimp only at hocc hr hc
      have occ : ∀ k : Nat, k < 4 →
          occupied b ((fun k : Nat => (row, col - i + k)) k).1
            ((fun k : Nat => (row, col - i + k)) k).2 := by
        intro k hk
        refine occupied_congr b ?_ ?_ (hocc k hk)
        · dsimp only; omega
        · dsimp only; omega
      obtain ⟨m, hm, hbm⟩ := (window_match_iff b _).2 occ
      exact ⟨m, (mem_winsAt row col m).2 (Or.inl ⟨i, hi, by rw [bmHorz_eq]; exact hm⟩), hbm⟩
    · dsimp only at hocc hr hc
      have hi3 : i = 3 := by
        by_contra hne
        have h3 := hocc 3 (by decide)
        refine hgrav (r0 + 3) (by omega) (occupied_congr b ?_ ?_ h3)
        · push_cast; omega
        · push_cast; omega
      subst hi3
      have occ : ∀ k : Nat, k < 4 →
          occupied b ((fun k : Nat => (row - k, col)) k).1
            ((fun k : Nat => (row - k, col)) k).2 := by
        intro k hk
        refine occupied_congr b ?_ ?_ (hocc (3 - k) (by omega))
        · dsimp only; omega
        · dsimp only; omega
      obtain ⟨m, hm, hbm⟩ := (window_match_iff b _).2 occ
      exact ⟨m, (mem_winsAt row col m).2 (Or.inr (Or.inl (by rw [bmVert_eq]; exact hm))), hbm⟩
    · dsimp only at hocc hr hc
      have occ : ∀ k : Nat, k < 4 →
          occupied b ((fun k : Nat => (row - i + k, col - i + k)) k).1
            ((fun k : Nat => (row - i + k, col - i + k)) k).2 := by
        intro k hk
        refine occupied_congr b ?_ ?_ (hocc k hk)
        · dsimp only; omega
        · dsimp only; omega
      obtain ⟨m, hm, hbm⟩ := (window_match_iff b _).2 occ
      exact ⟨m, (mem_winsAt row col m).2
        (Or.inr (Or.inr (Or.inl ⟨i, hi, by rw [bmDiag0_eq]; exact hm⟩))), hbm⟩
    · dsimp only at hocc hr hc
      have occ : ∀ k : Nat, k < 4 →
          occupied b ((fun k : Nat => (row + i - k, col - i + k)) k).1
            ((fun k : Nat => (row + i - k, col - i + k)) k).2 := by
        intro k hk
        refine occupied_congr b ?_ ?_ (hocc k hk)
        · dsimp only; omega
        · dsimp only; omega
      obtain ⟨m, hm, hbm⟩ := (window_match_iff b _).2 occ
      exact ⟨m, (mem_winsAt row col m).2
        (Or.inr (Or.inr (Or.inr ⟨i, hi, by rw [bmDiag1_eq]; exact hm⟩))), hbm⟩

/-! ## The game operations -/

theorem winLoop_eq (g : Game) (p : Fin 2) (masks : List Nat) :
    winLoop g (p.val : Int) masks = some (decide (∃ m ∈ masks, g.player p &&& m = m)) := by
  induction masks with
  | nil => simp [winLoop]
  | cons m rest ih =>
    have hp : ¬ ((p.val : Int) < 0 ∨ (p.val : Int) ≥ nPlayers) := by
      have := p.isLt
      unfold nPlayers
      omega
    have hfin : (⟨((p.val : Int)).toNat, by have := p.isLt; omega⟩ : Fin 2) = p := by
      apply Fin.ext; simp
    unfold winLoop
    rw [dif_neg hp]
    simp only [hfin, ih]
    by_cases hm : g.player p &&& m = m
    · simp [hm]
    · simp [hm]

theorem Win_eq (g : Game) (p : Fin 2) (row col : Int) (hon : onBoard row col)
    (hl : g.last = row * 7 + col) :
    Win g (p.val : Int) = some (decide (∃ m ∈ winsAt row col, g.player p &&& m = m)) := by
  obtain ⟨h1, h2, h3, h4⟩ := id hon
  unfold Win
  rw [if_neg (by omega)]
  have e : g.last.toNat = cellIdx row col := by unfold cellIdx; rw [hl]
  rw [e, winSet_onBoard row col hon]
  exact winLoop_eq g p _

/-- The state after a successful `Add` of player `p` in column `c`. -/
theorem Add_ok (g : Game) (p : Fin 2) (c : Fin 7) (h0 : 0 ≤ g.colHeight c)
    (h6 : g.colHeight c < 6) :
    Add g (p.val : Int) (c.val : Int) = .returned (placed g p c) none := by
  have hc : ¬ ((c.val : Int) < 0 ∨ (c.val : Int) ≥ nCols) := by
    have := c.isLt
    unfold nCols
    omega
  have hp : ¬ ((p.val : Int) < 0 ∨ (p.val : Int) ≥ nPlayers) := by
    have := p.isLt
    unfold nPlayers
    omega
  have hcfin : (⟨((c.val : Int)).toNat, by have := c.isLt; omega⟩ : Fin 7) = c := by
    apply Fin.ext; simp
  have hpfin : (⟨((p.val : Int)).toNat, by have := p.isLt; omega⟩ : Fin 2) = p := by
    apply Fin.ext; simp
  have hidx : posnIndex (g.colHeight c) c.val = g.colHeight c * 7 + c.val := by
    have := c.isLt
    exact posnIndex_small _ _ (by omega) (by omega) (by omega) (by omega)
  have hsh : (1 <<< (g.colHeight c * 7 + (c.val : Int)).toNat) % 18446744073709551616
      = 2 ^ cellIdx (g.colHeight c) c.val := by
    have := c.isLt
    exact shl_one_small _ (by omega)
  unfold Add
  rw [dif_neg hc]
  simp only [hcfin]
  rw [if_neg (by unfold nRows; omega)]
  simp only [hidx]
  rw [dif_neg hp, if_neg (by have := c.isLt; omega)]
  simp only [hpfin, hsh, placed]

theorem Add_invalid_col (g : Game) (player col : Int) (h : col < 0 ∨ 7 ≤ col) :
    Add g player col = .returned g (some "invalid col") := by
  unfold Add
  rw [dif_pos (by unfold nCols; omega)]

theorem Add_full (g : Game) (player : Int) (c : Fin 7) (h : 6 ≤ g.colHeight c) :
    Add g player (c.val : Int) = .returned g (some "no col space") := by
  have hc : ¬ ((c.val : Int) < 0 ∨ (c.val : Int) ≥ nCols) := by
    have := c.isLt
    unfold nCols
    omega
  have hcfin : (⟨((c.val : Int)).toNat, by have := c.isLt; omega⟩ : Fin 7) = c := by
    apply Fin.ext; simp
  unfold Add
  rw [dif_neg hc]
  simp only [hcfin]
  rw [if_pos (by unfold nRows; omega)]

theorem cellIdx_inj (r r' : Int) (c c' : Fin 7) (hr : 0 ≤ r) (hr' : 0 ≤ r') :
    cellIdx r c.val = cellIdx r' c'.val ↔ r = r' ∧ c = c' := by
  have h1 := c.isLt
  have h2 := c'.isLt
  unfold cellIdx
  constructor
  · intro h
    have hc : c.val = c'.val := by omega
    exact ⟨by omega, Fin.ext hc⟩
  · rintro ⟨rfl, rfl⟩
    rfl

theorem placed_boards (g : Game) (p : Fin 2) (c : Fin 7) (i : Nat) :
    ((placed g p c).player 0 ||| (placed g p c).player 1).testBit i =
      ((g.player 0 ||| g.player 1).testBit i ||
        decide (cellIdx (g.colHeight c) c.val = i)) := by
  simp only [placed, Nat.testBit_or]
  fin_cases p
  · simp only [Fin.zero_eta, if_true, Nat.testBit_or, Nat.testBit_two_pow]
    rw [if_neg (by decide)]
    cases g.player 0 |>.testBit i <;> cases g.player 1 |>.testBit i <;> simp
  · simp only [Fin.mk_one, if_true, Nat.testBit_or, Nat.testBit_two_pow]
    rw [if_neg (by decide)]
    cases g.player 0 |>.testBit i <;> cases g.player 1 |>.testBit i <;> simp

theorem Inv_NewGame : Inv NewGame := by
  refine ⟨fun _ => le_refl _, fun _ => by simp [NewGame], ?_, by simp [NewGame],
    by simp [NewGame]⟩
  intro r c h0 h6
  simp only [NewGame, Nat.zero_or, Nat.zero_testBit]
  constructor
  · intro h; cases h
  · intro h; omega

theorem Inv_placed (g : Game) (p : Fin 2) (c : Fin 7) (hinv : Inv g)
    (h6 : g.colHeight c < 6) : Inv (placed g p c) := by
  have h0 := hinv.height_nonneg c
  have hfree : (g.player 0 ||| g.player 1).testBit (cellIdx (g.colHeight c) c.val) = false := by
    have := hinv.gravity (g.colHeight c) c h0 h6
    cases hb : (g.player 0 ||| g.player 1).testBit (cellIdx (g.colHeight c) c.val)
    · rfl
    · exact absurd (this.1 hb) (lt_irrefl _)
  refine ⟨?_, ?_, ?_, ?_, ?_⟩
  · intro d
    simp only [placed]
    split_ifs
    · omega
    · exact hinv.height_nonneg d
  · intro d
    simp only [placed]
    split_ifs
    · omega
    · exact hinv.height_le d
  · intro r d hr0 hr6
    rw [placed_boards]
    have hold := hinv.gravity r d hr0 hr6
    have hinj := cellIdx_inj (g.colHeight c) r c d h0 hr0
    simp only [placed, Bool.or_eq_true, decide_eq_true_eq, hold, hinj]
    by_cases hd : d = c
    · subst hd
      simp only [if_true, and_true]
      omega
    · rw [if_neg hd]
      constructor
      · rintro (h | ⟨_, h⟩)
        · exact h
        · exact absurd h.symm hd
      · intro h; exact Or.inl h
  · apply Nat.eq_of_testBit_eq
    intro i
    have hdis : ((g.player 0).testBit i && (g.player 1).testBit i) = false := by
      have := congrArg (fun z => z.testBit i) hinv.disjoint
      simpa using this
    rw [Nat.testBit_or] at hfree
    simp only [Nat.testBit_and, Nat.zero_testBit, placed]
    fin_cases p
    · simp only [Fin.zero_eta, if_true, Nat.testBit_or, Nat.testBit_two_pow]
      rw [if_neg (by decide)]
      by_cases hi : cellIdx (g.colHeight c) c.val = i
      · subst hi
        cases h0' : (g.player 0).testBit (cellIdx (g.colHeight c) c.val) <;>
          cases h1' : (g.player 1).testBit (cellIdx (g.colHeight c) c.val) <;> simp_all
      · simp only [hi, decide_False, Bool.or_false]
        exact hdis
    · simp only [Fin.mk_one, if_true, Nat.testBit_or, Nat.testBit_two_pow]
      rw [if_neg (by decide)]
      by_cases hi : cellIdx (g.colHeight c) c.val = i
      · subst hi
        cases h0' : (g.player 0).testBit (cellIdx (g.colHeight c) c.val) <;>
          cases h1' : (g.player 1).testBit (cellIdx (g.colHeight c) c.val) <;> simp_all
      · simp only [hi, decide_False, Bool.or_false]
        exact hdis
  · have := c.isLt
    simp only [placed]
    omega

/-- Every returning call of `Add` with player 0 or 1 on a state with non-negative heights
either fails and leaves the state as it was, or succeeds with the state `placed`. -/
theorem Add_cases (g g' : Game) (player col : Int) (e : Option String)
    (hh : ∀ c, 0 ≤ g.colHeight c) (hp : player = 0 ∨ player = 1)
    (h : Add g player col = .returned g' e) :
    (g' = g ∧ e ≠ none) ∨
    (∃ (p : Fin 2) (c : Fin 7), (p.val : Int) = player ∧ (c.val : Int) = col ∧
      g.colHeight c < 6 ∧ e = none ∧ g' = placed g p c) := by
  by_cases hcol : col < 0 ∨ 7 ≤ col
  · rw [Add_invalid_col g player col hcol] at h
    injection h with hg he
    exact Or.inl ⟨hg.symm, by rw [← he]; simp⟩
  · obtain ⟨c, rfl⟩ : ∃ c : Fin 7, (c.val : Int) = col :=
      ⟨⟨col.toNat, by omega⟩, by simp only; omega⟩
    obtain ⟨p, rfl⟩ : ∃ p : Fin 2, (p.val : Int) = player :=
      ⟨⟨player.toNat, by omega⟩, by simp only; omega⟩
    by_cases hfull : 6 ≤ g.colHeight c
    · rw [Add_full g _ c hfull] at h
      injection h with hg he
      exact Or.inl ⟨hg.symm, by rw [← he]; simp⟩
    · rw [Add_ok g p c (hh c) (by omega)] at h
      injection h with hg he
      exact Or.inr ⟨p, c, rfl, rfl, by omega, he.symm, hg.symm⟩

theorem Inv_of_Reachable (g : Game) (h : Reachable g) : Inv g := by
  induction h with
  | init => exact Inv_NewGame
  | add g g' player col e _ hp hadd ih =>
    rcases Add_cases g g' player col e ih.height_nonneg hp hadd with
      ⟨rfl, _⟩ | ⟨p, c, _, _, h6, _, rfl⟩
    · exact ih
    · exact Inv_placed g p c ih h6

theorem placed_not_above (g : Game) (p q : Fin 2) (c : Fin 7) (hinv : Inv g)
    (h6 : g.colHeight c < 6) (r : Int) (hr : g.colHeight c < r) :
    ¬ occupied ((placed g p c).player q) r c.val := by
  rintro ⟨⟨hr0, hr6, _, _⟩, hbit⟩
  have hg := (Inv_placed g p c hinv h6).gravity r c hr0 hr6
  have hor : ((placed g p c).player 0 ||| (placed g p c).player 1).testBit
      (cellIdx r c.val) = true := by
    rw [Nat.testBit_or]
    fin_cases q
    · simp only [Fin.zero_eta] at hbit; simp [hbit]
    · simp only [Fin.mk_one] at hbit; simp [hbit]
  have := hg.1 hor
  simp only [placed, if_true] at this
  omega

theorem placed_onBoard (g : Game) (c : Fin 7) (hinv : Inv g) (h6 : g.colHeight c < 6) :
    onBoard (g.colHeight c) c.val := by
  have := c.isLt
  have := hinv.height_nonneg c
  exact ⟨by omega, by omega, by omega, by omega⟩

theorem threeInRow_reachable : Reachable threeInRow :=
  Reachable.add _ _ 0 2 none
    (Reachable.add _ _ 0 1 none
      (Reachable.add _ _ 0 0 none Reachable.init (Or.inl rfl)
        (Add_ok NewGame 0 0 (by decide) (by decide)))
      (Or.inl rfl) (Add_ok (placed NewGame 0 0) 0 1 (by decide) (by decide)))
    (Or.inl rfl) (Add_ok (placed (placed NewGame 0 0) 0 1) 0 2 (by decide) (by decide))

/-! ## The claims -/

/-- C1: on a state reached from `NewGame` by `Add` calls with player 0 or 1, after a
further successful `Add(player, col)` that places a piece at `(h, col)`, `h` the height of
the column before the call, `Win(player)` returns, and it returns true exactly when the
player holds four consecutive on-board cells in one row, one column or one diagonal
(rising or falling), one of which is `(h, col)`. -/
theorem C1_win_iff_four_through_placed (g g' : Game) (player col : Int)
    (hr : Reachable g) (hp : player = 0 ∨ player = 1)
    (hadd : Add g player col = .returned g' none) :
    ∃ (p : Fin 2) (c : Fin 7), (p.val : Int) = player ∧ (c.val : Int) = col ∧
      Win g' player = some (decide (fourInLineThrough (g'.player p) (g.colHeight c) col)) := by
  have hinv := Inv_of_Reachable g hr
  rcases Add_cases g g' player col none hinv.height_nonneg hp hadd with
    ⟨_, hne⟩ | ⟨p, c, rfl, rfl, h6, _, rfl⟩
  · exact absurd rfl hne
  · refine ⟨p, c, rfl, rfl, ?_⟩
    rw [Win_eq (placed g p c) p (g.colHeight c) c.val (placed_onBoard g c hinv h6) rfl]
    congr 1
    apply decide_eq_decide.2
    exact winsAt_match_iff _ _ _ (fun r hr => placed_not_above g p p c hinv h6 r hr)

/-- Witness of C1: player 0 holds `(0,0)`, `(0,1)`, `(0,2)` and plays column 3. -/
theorem C1_win_iff_four_through_placed_witness :
    Reachable threeInRow ∧
    Add threeInRow 0 3 = .returned (placed threeInRow 0 3) none ∧
    ∃ (p : Fin 2) (c : Fin 7), (p.val : Int) = 0 ∧ (c.val : Int) = 3 ∧
      Win (placed threeInRow 0 3) 0 =
        some (decide (fourInLineThrough ((placed threeInRow 0 3).player p)
          (threeInRow.colHeight c) 3)) :=
  ⟨threeInRow_reachable, Add_ok threeInRow 0 3 (by decide) (by decide),
    C1_win_iff_four_through_placed threeInRow (placed threeInRow 0 3) 0 3
      threeInRow_reachable (Or.inl rfl) (Add_ok threeInRow 0 3 (by decide) (by decide))⟩

/-- C2: on a game state (column heights within `[0,6]`, as the data model has them), for
player 0 or 1 and a column in `[0,7)` of height `h < 6`, `Add` returns no error; in the new
state the player's bitboard is the old one with bit `h*7+col` set, `last = h*7+col`, the
column's height is `h+1`, and the other player's bitboard and the other columns' heights
are unchanged. -/
theorem C2_add_success_effect (g : Game) (p : Fin 2) (c : Fin 7)
    (h0 : 0 ≤ g.colHeight c) (h6 : g.colHeight c < 6) :
    ∃ g', Add g (p.val : Int) (c.val : Int) = .returned g' none ∧
      g'.player p = g.player p ||| 2 ^ (g.colHeight c * 7 + c.val).toNat ∧
      g'.last = g.colHeight c * 7 + c.val ∧
      g'.colHeight c = g.colHeight c + 1 ∧
      (∀ q, q ≠ p → g'.player q = g.player q) ∧
      (∀ d, d ≠ c → g'.colHeight d = g.colHeight d) := by
  refine ⟨placed g p c, Add_ok g p c h0 h6, ?_, rfl, ?_, ?_, ?_⟩
  · simp [placed, cellIdx]
  · simp [placed]
  · intro q hq
    simp [placed, hq]
  · intro d hd
    simp [placed, hd]

/-- Witness of C2: player 1 drops a piece in column 2 of the empty board. -/
theorem C2_add_success_effect_witness :
    (0 ≤ NewGame.colHeight 2 ∧ NewGame.colHeight 2 < 6) ∧
    ∃ g', Add NewGame ((1 : Fin 2).val : Int) ((2 : Fin 7).val : Int) = .returned g' none ∧
      g'.player 1 = NewGame.player 1 ||| 2 ^ (NewGame.colHeight 2 * 7 + (2 : Fin 7).val).toNat ∧
      g'.last = NewGame.colHeight 2 * 7 + (2 : Fin 7).val ∧
      g'.colHeight 2 = NewGame.colHeight 2 + 1 ∧
      (∀ q, q ≠ 1 → g'.player q = NewGame.player q) ∧
      (∀ d, d ≠ 2 → g'.colHeight d = NewGame.colHeight d) :=
  ⟨⟨by decide, by decide⟩, C2_add_success_effect NewGame 1 2 (by decide) (by decide)⟩

/-- C3: on every game state, for every player and every column in `[0,7)` whose height is
6, `Add` returns the error "no col space" and leaves the state (both bitboards, all seven
heights and `last`) as it was. -/
theorem C3_add_full_column (g : Game) (player : Int) (c : Fin 7) (h : g.colHeight c = 6) :
    Add g player (c.val : Int) = .returned g (some "no col space") :=
  Add_full g player c (by omega)

/-- Witness of C3: column 0 of `fullColumnGame` holds six pieces. -/
theorem C3_add_full_column_witness :
    fullColumnGame.colHeight 0 = 6 ∧
    Add fullColumnGame 1 ((0 : Fin 7).val : Int) =
      .returned fullColumnGame (some "no col space") :=
  ⟨by decide, C3_add_full_column fullColumnGame 1 0 (by decide)⟩

/-- C4: on every game state, for every player and every integer column outside `[0,7)`,
`Add` returns the error "invalid col", which differs from the column-full error
"no col space", and leaves the state as it was; and `Add` returns "invalid col" only for
a column outside `[0,7)`. -/
theorem C4_add_invalid_column (g : Game) (player col : Int) :
    ((col < 0 ∨ 7 ≤ col) → Add g player col = .returned g (some "invalid col")) ∧
    "invalid col" ≠ "no col space" ∧
    (∀ g', Add g player col = .returned g' (some "invalid col") → (col < 0 ∨ 7 ≤ col)) := by
  refine ⟨Add_invalid_col g player col, by decide, ?_⟩
  intro g' h
  by_contra hcol
  have hc : ¬ (col < 0 ∨ col ≥ nCols) := by unfold nCols; omega
  unfold Add at h
  rw [dif_neg hc] at h
  dsimp only at h
  split_ifs at h
  · injection h with _ he
    injection he with he
    exact absurd he (by decide)
  · injection h with _ he
    cases he

/-- Witness of C4: columns -1 and 7 on the empty board. -/
theorem C4_add_invalid_column_witness :
    ((-1 : Int) < 0 ∨ 7 ≤ (-1 : Int)) ∧
    Add NewGame 0 (-1) = .returned NewGame (some "invalid col") ∧
    Add NewGame 0 7 = .returned NewGame (some "invalid col") :=
  ⟨Or.inl (by decide), (C4_add_invalid_column NewGame 0 (-1)).1 (Or.inl (by decide)),
    (C4_add_invalid_column NewGame 0 7).1 (Or.inr (by decide))⟩

/-- C5: on a state reached from `NewGame` by `Add` calls with player 0 or 1, right after
a successful `Add(p, col)` the query `Win(1-p)` for the player who did not move returns
false. -/
theorem C5_win_other_player_false (g g' : Game) (p : Fin 2) (col : Int)
    (hr : Reachable g) (hadd : Add g (p.val : Int) col = .returned g' none) :
    Win g' (1 - (p.val : Int)) = some false := by
  have hinv := Inv_of_Reachable g hr
  have hp : (p.val : Int) = 0 ∨ (p.val : Int) = 1 := by
    have := p.isLt
    omega
  rcases Add_cases g g' p.val col none hinv.height_nonneg hp hadd with
    ⟨_, hne⟩ | ⟨p', c, hpp, rfl, h6, _, rfl⟩
  · exact absurd rfl hne
  · have hp' : p' = p := Fin.ext (by omega)
    subst hp'
    obtain ⟨q, hq, hqp⟩ : ∃ q : Fin 2, (q.val : Int) = 1 - (p'.val : Int) ∧ q ≠ p' := by
      fin_cases p'
      · exact ⟨1, by simp, by decide⟩
      · exact ⟨0, by simp, by decide⟩
    rw [← hq, Win_eq (placed g p' c) q (g.colHeight c) c.val (placed_onBoard g c hinv h6) rfl]
    congr 1
    apply decide_eq_false
    rw [winsAt_match_iff _ _ _ (fun r hr => placed_not_above g p' q c hinv h6 r hr)]
    intro hfour
    obtain ⟨d, _, r0, c0, i, hi, hocc, hrow, hcol⟩ := fourInLine_elim _ _ _ hfour
    have hcell := (hocc i hi).2
    rw [hrow, hcol] at hcell
    have hold : (g.player q).testBit (cellIdx (g.colHeight c) c.val) = true := by
      simpa [placed, hqp] using hcell
    have hg := (hinv.gravity (g.colHeight c) c (hinv.height_nonneg c) h6).1 (by
      rw [Nat.testBit_or]
      fin_cases q
      · simp only [Fin.zero_eta] at hold; simp [hold]
      · simp only [Fin.mk_one] at hold; simp [hold])
    exact lt_irrefl _ hg

/-- Witness of C5: after player 0 opens in column 3, player 1 has not won. -/
theorem C5_win_other_player_false_witness :
    Reachable NewGame ∧ Win (placed NewGame 0 3) (1 - ((0 : Fin 2).val : Int)) = some false :=
  ⟨Reachable.init,
    C5_win_other_player_false NewGame (placed NewGame 0 3) 0 3 Reachable.init
      (Add_ok NewGame 0 3 (by decide) (by decide))⟩

/-- C6: in every state reached from `NewGame` by `Add` calls (successful or failing) with
player 0 or 1, the two bitboards are disjoint: `player[0] AND player[1] = 0`. -/
theorem C6_bitboards_disjoint (g : Game) (hr : Reachable g) :
    g.player 0 &&& g.player 1 = 0 :=
  (Inv_of_Reachable g hr).disjoint

/-- Witness of C6: the state after player 0 opens in column 3. -/
theorem C6_bitboards_disjoint_witness :
    Reachable (placed NewGame 0 3) ∧
    (placed NewGame 0 3).player 0 &&& (placed NewGame 0 3).player 1 = 0 :=
  ⟨Reachable.add NewGame _ 0 3 none Reachable.init (Or.inl rfl)
      (Add_ok NewGame 0 3 (by decide) (by decide)),
    C6_bitboards_disjoint (placed NewGame 0 3)
      (Reachable.add NewGame _ 0 3 none Reachable.init (Or.inl rfl)
        (Add_ok NewGame 0 3 (by decide) (by decide)))⟩

set_option maxRecDepth 1000000 in
/-- C7: horizontal win.  For each player `p` and each start column `c` in `0..3`, from
`NewGame` the four calls `Add(p,c)`, `Add(p,c+1)`, `Add(p,c+2)`, `Add(p,c+3)` all succeed
and land in row 0; `Win(p)` is false after each of the first three and true after the
fourth. -/
theorem C7_horizontal_scenario : ∀ (p : Fin 2) (c : Fin 4),
    ∃ g1 g2 g3 g4 : Game,
      Add NewGame (p.val : Int) (c.val : Int) = .returned g1 none ∧
      g1.last = posnIndex 0 (c.val : Int) ∧ Win g1 (p.val : Int) = some false ∧
      Add g1 (p.val : Int) ((c.val : Int) + 1) = .returned g2 none ∧
      g2.last = posnIndex 0 ((c.val : Int) + 1) ∧ Win g2 (p.val : Int) = some false ∧
      Add g2 (p.val : Int) ((c.val : Int) + 2) = .returned g3 none ∧
      g3.last = posnIndex 0 ((c.val : Int) + 2) ∧ Win g3 (p.val : Int) = some false ∧
      Add g3 (p.val : Int) ((c.val : Int) + 3) = .returned g4 none ∧
      g4.last = posnIndex 0 ((c.val : Int) + 3) ∧ Win g4 (p.val : Int) = some true := by
  intro p c
  fin_cases p <;> fin_cases c <;>
    exact ⟨_, _, _, _, rfl, rfl, rfl, rfl, rfl, rfl, rfl, rfl, rfl, rfl, rfl, rfl⟩

set_option maxRecDepth 1000000 in
/-- C8: vertical win.  For each player `p` and each column `c` in `[0,7)`, from `NewGame`
four consecutive calls `Add(p,c)` all succeed; `Win(p)` is false after the first, second
and third and true after the fourth. -/
theorem C8_vertical_scenario : ∀ (p : Fin 2) (c : Fin 7),
    ∃ g1 g2 g3 g4 : Game,
      Add NewGame (p.val : Int) (c.val : Int) = .returned g1 none ∧
      Win g1 (p.val : Int) = some false ∧
      Add g1 (p.val : Int) (c.val : Int) = .returned g2 none ∧
      Win g2 (p.val : Int) = some false ∧
      Add g2 (p.val : Int) (c.val : Int) = .returned g3 none ∧
      Win g3 (p.val : Int) = some false ∧
      Add g3 (p.val : Int) (c.val : Int) = .returned g4 none ∧
      Win g4 (p.val : Int) = some true := by
  intro p c
  fin_cases p <;> fin_cases c <;>
    exact ⟨_, _, _, _, rfl, rfl, rfl, rfl, rfl, rfl, rfl, rfl⟩

set_option maxRecDepth 1000000 in
theorem winsAt_masks_check : ∀ (r : Fin 6) (c : Fin 7),
    (winsAt (r.val : Int) (c.val : Int)).all
      (fun m => popCount m == 4 && decide (m < 2 ^ 42) && m.testBit (r.val * 7 + c.val)) =
      true := by
  intro r c
  fin_cases r <;> fin_cases c <;> rfl

theorem posnIndex_fin (r : Fin 6) (c : Fin 7) :
    (posnIndex (r.val : Int) (c.val : Int)).toNat = r.val * 7 + c.val := by
  have := r.isLt
  have := c.isLt
  rw [posnIndex_small _ _ (by omega) (by omega) (by omega) (by omega)]
  omega

/-- C9: for every position `(r,c)` of the board, every mask of the entry
`winSet[r*7+c]` built by `genWins` has exactly 4 bits set, has all its set bits at
indices in `[0,42)`, and has the anchor's own bit `r*7+c` set. -/
theorem C9_masks_wellformed : ∀ (r : Fin 6) (c : Fin 7),
    ∃ entry, winSet.get? (posnIndex (r.val : Int) (c.val : Int)).toNat = some entry ∧
      ∀ m ∈ entry, popCount m = 4 ∧ (∀ i, m.testBit i = true → i < 42) ∧
        m.testBit (posnIndex (r.val : Int) (c.val : Int)).toNat = true := by
  intro r c
  refine ⟨winsAt (r.val : Int) (c.val : Int), ?_, ?_⟩
  · rw [posnIndex_fin]
    exact winSet_entry r c
  · intro m hm
    have hall := winsAt_masks_check r c
    rw [List.all_eq_true] at hall
    have hmask := hall m hm
    simp only [Bool.and_eq_true, beq_iff_eq, decide_eq_true_eq] at hmask
    obtain ⟨⟨hpop, hlt⟩, hbit⟩ := hmask
    refine ⟨hpop, ?_, by rw [posnIndex_fin]; exact hbit⟩
    intro i hi
    by_contra hge
    have hle : 2 ^ 42 ≤ 2 ^ i := Nat.pow_le_pow_right (by decide) (by omega)
    have hfalse := Nat.testBit_lt_two_pow (lt_of_lt_of_le hlt hle)
    rw [hfalse] at hi
    cases hi

set_option maxRecDepth 1000000 in
/-- C10, as stated, fails: the entry of `(0,0)` is not a single mask equal to the
vertical window. -/
theorem C10_corner_entry_counterexample :
    ¬ ∃ m, winSet.get? (posnIndex 0 0).toNat = some [m] ∧ bmVert 0 0 = .ok m := by
  rintro ⟨m, h, _⟩
  have h2 : winSet.get? (posnIndex 0 0).toNat = some [15, 16843009] := by rfl
  rw [h2] at h
  injection h with h
  injection h with _ h
  cases h

set_option maxRecDepth 1000000 in
/-- C10, amended: the entry built by `genWins` for the corner `(0,0)` (index 0) holds
exactly 2 masks, in this order: the horizontal window `(0,0),(0,1),(0,2),(0,3)` and the
rising-diagonal window `(0,0),(1,1),(2,2),(3,3)`; no vertical and no falling-diagonal
window is stored for `(0,0)`. -/
theorem C10_corner_entry :
    winSet.get? (posnIndex 0 0).toNat =
      some [2 ^ 0 ||| 2 ^ 1 ||| 2 ^ 2 ||| 2 ^ 3, 2 ^ 0 ||| 2 ^ 8 ||| 2 ^ 16 ||| 2 ^ 24] ∧
    bmHorz 0 0 = .ok (2 ^ 0 ||| 2 ^ 1 ||| 2 ^ 2 ||| 2 ^ 3) ∧
    bmDiag0 0 0 = .ok (2 ^ 0 ||| 2 ^ 8 ||| 2 ^ 16 ||| 2 ^ 24) ∧
    (∀ m, bmVert 0 0 ≠ .ok m) ∧
    (∀ (i : Nat) (m : Nat), i < 4 → bmDiag1 (0 + i) (0 - i) ≠ .ok m) ∧
    (∀ (i : Nat) (m : Nat), 0 < i → i < 4 → bmHorz 0 (0 - i) ≠ .ok m) ∧
    (∀ (i : Nat) (m : Nat), 0 < i → i < 4 → bmDiag0 (0 - i) (0 - i) ≠ .ok m) := by
  refine ⟨by rfl, by rfl, by rfl, ?_, ?_, ?_, ?_⟩
  · intro m h
    rw [bmVert_eq, bmLoop_ok_iff] at h
    have := (h.1 1 (by decide)).1
    simp at this
  · intro i m hi h
    rw [bmDiag1_eq, bmLoop_ok_iff] at h
    have h1 := h.1 1 (by decide)
    have h0 := h.1 0 (by decide)
    unfold onBoard at h0 h1
    dsimp only at h0 h1
    push_cast at h0 h1
    omega
  · intro i m hi0 hi h
    rw [bmHorz_eq, bmLoop_ok_iff] at h
    have h0 := h.1 0 (by decide)
    unfold onBoard at h0
    dsimp only at h0
    push_cast at h0
    omega
  · intro i m hi0 hi h
    rw [bmDiag0_eq, bmLoop_ok_iff] at h
    have h0 := h.1 0 (by decide)
    unfold onBoard at h0
    dsimp only at h0
    push_cast at h0
    omega

/-- Witness of the amended C10: the skipped candidates at offset 1. -/
theorem C10_corner_entry_witness :
    bmDiag1 (0 + (1 : Nat)) (0 - (1 : Nat)) ≠ .ok 0 ∧
    bmHorz 0 (0 - (1 : Nat)) ≠ .ok 0 ∧
    bmDiag0 (0 - (1 : Nat)) (0 - (1 : Nat)) ≠ .ok 0 :=
  ⟨C10_corner_entry.2.2.2.2.1 1 0 (by decide),
    C10_corner_entry.2.2.2.2.2.1 1 0 (by decide) (by decide),
    C10_corner_entry.2.2.2.2.2.2 1 0 (by decide) (by decide)⟩

/-! ## Entry sizes -/

theorem winSet_get_lt (i : Nat) (h : i < 42) :
    winSet.get? i = some (winsAt ((i / 7 : Nat) : Int) ((i % 7 : Nat) : Int)) := by
  have key := winSet_entry ⟨i / 7, by omega⟩ ⟨i % 7, Nat.mod_lt _ (by decide)⟩
  dsimp only at key
  rw [Nat.div_add_mod' i 7] at key
  exact key

set_option maxRecDepth 1000000 in
theorem winsAt_length_check : ∀ (r : Fin 6) (c : Fin 7),
    (decide (2 ≤ (winsAt (r.val : Int) (c.val : Int)).length) &&
      decide ((winsAt (r.val : Int) (c.val : Int)).length ≤ 11)) = true := by
  intro r c
  fin_cases r <;> fin_cases c <;> rfl

theorem winsAt_length_bounds (r : Fin 6) (c : Fin 7) :
    2 ≤ (winsAt (r.val : Int) (c.val : Int)).length ∧
      (winsAt (r.val : Int) (c.val : Int)).length ≤ 11 := by
  have h := winsAt_length_check r c
  simp only [Bool.and_eq_true, decide_eq_true_eq] at h
  exact h

theorem winLoopCount_spec (g : Game) (p : Fin 2) (masks : List Nat) :
    ∃ b n, winLoopCount g (p.val : Int) masks = some (b, n) ∧ n ≤ masks.length ∧
      winLoop g (p.val : Int) masks = some b := by
  induction masks with
  | nil => exact ⟨false, 0, rfl, le_refl _, rfl⟩
  | cons m rest ih =>
    have hp : ¬ ((p.val : Int) < 0 ∨ (p.val : Int) ≥ nPlayers) := by
      have := p.isLt
      unfold nPlayers
      omega
    obtain ⟨b, n, hc, hn, hw⟩ := ih
    unfold winLoopCount winLoop
    rw [dif_neg hp, dif_neg hp]
    dsimp only
    split_ifs with hm
    · exact ⟨true, 1, rfl, by simp, rfl⟩
    · refine ⟨b, n + 1, by rw [hc]; rfl, by simp; exact hn, hw⟩

set_option maxRecDepth 1000000 in
/-- C11, as stated, fails: the entry of row 2, column 3 (index 17) does not hold 13
masks. -/
theorem C11_interior_entry_counterexample :
    ¬ ∃ entry, winSet.get? (posnIndex 2 3).toNat = some entry ∧ entry.length = 13 := by
  rintro ⟨entry, h, hlen⟩
  have h2 : winSet.get? (posnIndex 2 3).toNat = some (winsAt 2 3) := by rfl
  have h3 : (winsAt 2 3).length = 10 := by rfl
  rw [h2] at h
  injection h with h
  rw [← h, h3] at hlen
  cases hlen

set_option maxRecDepth 1000000 in
/-- C11, amended: the entry built by `genWins` for row 2, column 3 (index 17) holds
exactly 10 masks (4 horizontal, no vertical, 3 rising-diagonal, 3 falling-diagonal, in
this order), and the maximum entry size over all 42 positions is 11, attained at row 3,
column 3. -/
theorem C11_interior_entry :
    (∃ hz vt d0 d1 : List Nat,
      winSet.get? (posnIndex 2 3).toNat = some (hz ++ vt ++ d0 ++ d1) ∧
      hz = (List.range nConnect).filterMap (fun (i : Nat) => (bmHorz 2 (3 - i)).toOption) ∧
      vt = (bmVert 2 3).toOption.toList ∧
      d0 = (List.range nConnect).filterMap
        (fun (i : Nat) => (bmDiag0 (2 - i) (3 - i)).toOption) ∧
      d1 = (List.range nConnect).filterMap
        (fun (i : Nat) => (bmDiag1 (2 + i) (3 - i)).toOption) ∧
      hz.length = 4 ∧ vt.length = 0 ∧ d0.length = 3 ∧ d1.length = 3 ∧
      (hz ++ vt ++ d0 ++ d1).length = 10) ∧
    (∀ (r : Fin 6) (c : Fin 7), ∃ entry,
      winSet.get? (posnIndex (r.val : Int) (c.val : Int)).toNat = some entry ∧
      entry.length ≤ 11) ∧
    (∃ entry, winSet.get? (posnIndex 3 3).toNat = some entry ∧ entry.length = 11) := by
  refine ⟨⟨_, _, _, _, ?_, rfl, rfl, rfl, rfl, by rfl, by rfl, by rfl, by rfl, by rfl⟩,
    ?_, ⟨winsAt 3 3, by rfl, by rfl⟩⟩
  · rfl
  · intro r c
    exact ⟨_, by rw [posnIndex_fin]; exact winSet_entry r c, (winsAt_length_bounds r c).2⟩

/-- C12: each of the 42 entries of the table built by `genWins` holds at most 13 masks,
and on every game state with `last` in `[0,42)` and for player 0 or 1, `Win` returns after
at most 13 mask comparisons, whatever the bitboards hold. -/
theorem C12_win_comparisons_bounded :
    (∀ (r : Fin 6) (c : Fin 7), ∃ entry,
      winSet.get? (posnIndex (r.val : Int) (c.val : Int)).toNat = some entry ∧
      entry.length ≤ 13) ∧
    (∀ (g : Game) (p : Fin 2), 0 ≤ g.last → g.last < 42 →
      ∃ b n, WinCount g (p.val : Int) = some (b, n) ∧ n ≤ 13 ∧
        Win g (p.val : Int) = some b) := by
  constructor
  · intro r c
    exact ⟨_, by rw [posnIndex_fin]; exact winSet_entry r c,
      le_trans (winsAt_length_bounds r c).2 (by decide)⟩
  · intro g p h0 h42
    have hget := winSet_get_lt g.last.toNat (by omega)
    have hlen := (winsAt_length_bounds ⟨g.last.toNat / 7, by omega⟩
      ⟨g.last.toNat % 7, Nat.mod_lt _ (by decide)⟩).2
    dsimp only at hlen
    obtain ⟨b, n, hc, hn, hw⟩ := winLoopCount_spec g p
      (winsAt ((g.last.toNat / 7 : Nat) : Int) ((g.last.toNat % 7 : Nat) : Int))
    refine ⟨b, n, ?_, by omega, ?_⟩
    · unfold WinCount
      rw [if_neg (by omega), hget]
      exact hc
    · unfold Win
      rw [if_neg (by omega), hget]
      exact hw

/-- Witness of C12: the state with three pieces of player 0 in row 0, `last = 2`. -/
theorem C12_win_comparisons_bounded_witness :
    (0 ≤ threeInRow.last ∧ threeInRow.last < 42) ∧
    ∃ b n, WinCount threeInRow ((0 : Fin 2).val : Int) = some (b, n) ∧ n ≤ 13 ∧
      Win threeInRow ((0 : Fin 2).val : Int) = some b :=
  ⟨⟨by decide, by decide⟩,
    C12_win_comparisons_bounded.2 threeInRow 0 (by decide) (by decide)⟩

/-- C13: `posnIndex(r,c) = r*7 + c` is a bijection between the 42 positions of the board
and `[0,42)`: on-board positions map into `[0,42)`, distinct on-board positions map to
distinct indices, and every index of `[0,42)` is the index of an on-board position. -/
theorem C13_posnIndex_bijection :
    (∀ r c : Int, onBoard r c →
      posnIndex r c = r * 7 + c ∧ 0 ≤ posnIndex r c ∧ posnIndex r c < 42) ∧
    (∀ r c r' c' : Int, onBoard r c → onBoard r' c' →
      posnIndex r c = posnIndex r' c' → r = r' ∧ c = c') ∧
    (∀ i : Int, 0 ≤ i → i < 42 → ∃ r c : Int, onBoard r c ∧ posnIndex r c = i) := by
  have hidx : ∀ r c : Int, onBoard r c → posnIndex r c = r * 7 + c := by
    rintro r c ⟨h1, h2, h3, h4⟩
    exact posnIndex_small r c (by omega) (by omega) (by omega) (by omega)
  refine ⟨?_, ?_, ?_⟩
  · intro r c h
    obtain ⟨h1, h2, h3, h4⟩ := id h
    rw [hidx r c h]
    exact ⟨rfl, by omega, by omega⟩
  · intro r c r' c' h h' he
    rw [hidx r c h, hidx r' c' h'] at he
    obtain ⟨h1, h2, h3, h4⟩ := h
    obtain ⟨h1', h2', h3', h4'⟩ := h'
    constructor <;> omega
  · intro i h0 h42
    have hon : onBoard (i / 7) (i % 7) := ⟨by omega, by omega, by omega, by omega⟩
    refine ⟨i / 7, i % 7, hon, ?_⟩
    rw [hidx _ _ hon]
    omega

/-- Witness of C13: the positions `(2,3)` and `(5,6)` and the index 41. -/
theorem C13_posnIndex_bijection_witness :
    (onBoard 2 3 ∧ posnIndex 2 3 = 2 * 7 + 3 ∧ 0 ≤ posnIndex 2 3 ∧ posnIndex 2 3 < 42) ∧
    (onBoard 5 6 ∧ (posnIndex 2 3 = posnIndex 5 6 → (2 : Int) = 5 ∧ (3 : Int) = 6)) ∧
    (∃ r c : Int, onBoard r c ∧ posnIndex r c = 41) :=
  ⟨⟨by decide, C13_posnIndex_bijection.1 2 3 (by decide)⟩,
    ⟨by decide, C13_posnIndex_bijection.2.1 2 3 5 6 (by decide) (by decide)⟩,
    C13_posnIndex_bijection.2.2 41 (by decide) (by decide)⟩

/-- C14: in every state reached from `NewGame` by `Add` calls with player 0 or 1, each of
the 7 column heights is in `[0,6]`. -/
theorem C14_heights_in_range (g : Game) (hr : Reachable g) :
    ∀ c : Fin 7, 0 ≤ g.colHeight c ∧ g.colHeight c ≤ 6 :=
  fun c => ⟨(Inv_of_Reachable g hr).height_nonneg c, (Inv_of_Reachable g hr).height_le c⟩

/-- Witness of C14: the state with three pieces of player 0 in row 0. -/
theorem C14_heights_in_range_witness :
    Reachable threeInRow ∧ ∀ c : Fin 7, 0 ≤ threeInRow.colHeight c ∧ threeInRow.colHeight c ≤ 6 :=
  ⟨threeInRow_reachable, C14_heights_in_range threeInRow threeInRow_reachable⟩

/-! ## Win as a state-passing call -/

theorem winLoopSt_eq (g : Game) (player : Int) (masks : List Nat) :
    winLoopSt g player masks = (winLoop g player masks).map (fun b => (b, g)) := by
  induction masks with
  | nil => rfl
  | cons m rest ih =>
    unfold winLoopSt winLoop
    by_cases hp : player < 0 ∨ player ≥ nPlayers
    · rw [dif_pos hp, dif_pos hp]
      rfl
    · rw [dif_neg hp, dif_neg hp]
      dsimp only
      split_ifs
      · rfl
      · exact ih

theorem WinSt_eq (g : Game) (player : Int) :
    WinSt g player = (Win g player).map (fun b => (b, g)) := by
  unfold WinSt Win
  split_ifs
  · rfl
  · cases winSet.get? g.last.toNat with
    | none => rfl
    | some masks => exact winLoopSt_eq g player masks

/-- C15: on every game state and for player 0 or 1, a call of `Win(player)` hands back
the state it was given, and `n` consecutive calls without an `Add` in between all return
the result of the first, leaving the state as it was. -/
theorem C15_win_pure (g : Game) (p : Fin 2) :
    WinSt g (p.val : Int) = (Win g (p.val : Int)).map (fun b => (b, g)) ∧
    ∀ n : Nat, winRepeat (n + 1) g (p.val : Int) =
      (Win g (p.val : Int)).map (fun b => (List.replicate (n + 1) b, g)) := by
  refine ⟨WinSt_eq g _, ?_⟩
  intro n
  induction n with
  | zero =>
    unfold winRepeat
    rw [WinSt_eq]
    cases Win g (p.val : Int) with
    | none => rfl
    | some b => rfl
  | succ n ih =>
    unfold winRepeat
    rw [WinSt_eq]
    cases hw : Win g (p.val : Int) with
    | none => rfl
    | some b =>
      rw [hw] at ih
      simp only [Option.map_some']
      rw [ih]
      rfl

/-! ## The table against the specification's description -/

set_option maxRecDepth 1000000 in
theorem winsAt_eq_specEntry : ∀ (r : Fin 6) (c : Fin 7),
    winsAt (r.val : Int) (c.val : Int) = specEntry (r.val : Int) (c.val : Int) := by
  intro r c
  fin_cases r <;> fin_cases c <;> rfl

/-- C16: for every position `(r,c)` of the board the entry `winSet[r*7+c]` built by
`genWins` is exactly the list of the specification, in its order: the horizontal windows
for `i = 0..3`, the single downward vertical window, the rising-diagonal windows for
`i = 0..3`, the falling-diagonal windows for `i = 0..3`, a window being kept exactly when
its four cells are on the board, each as the OR of the bits `1 << (row*7+col)` of its
cells. -/
theorem C16_entry_is_spec_list : ∀ (r : Fin 6) (c : Fin 7),
    winSet.get? (posnIndex (r.val : Int) (c.val : Int)).toNat =
      some (specEntry (r.val : Int) (c.val : Int)) := by
  intro r c
  rw [posnIndex_fin, ← winsAt_eq_specEntry]
  exact winSet_entry r c

/-! ## Table lookup against the full-board scan -/

theorem cellIdx_inj_onBoard (r c r' c' : Int) (h : onBoard r c) (h' : onBoard r' c')
    (he : cellIdx r c = cellIdx r' c') : r = r' ∧ c = c' := by
  obtain ⟨h1, h2, h3, h4⟩ := h
  obtain ⟨h1', h2', h3', h4'⟩ := h'
  unfold cellIdx at he
  constructor <;> omega

/-- After a successful `Add` on a state satisfying the invariant, `Win` for the mover is
the four-in-line check through the placed cell. -/
theorem Win_placed (g : Game) (p : Fin 2) (c : Fin 7) (hinv : Inv g)
    (h6 : g.colHeight c < 6) :
    Win (placed g p c) (p.val : Int) =
      some (decide (fourInLineThrough ((placed g p c).player p) (g.colHeight c) c.val)) := by
  rw [Win_eq (placed g p c) p (g.colHeight c) c.val (placed_onBoard g c hinv h6) rfl]
  congr 1
  apply decide_eq_decide.2
  exact winsAt_match_iff _ _ _ (fun r hr => placed_not_above g p p c hinv h6 r hr)

theorem fourInLineThrough_anywhere (b : Nat) (row col : Int)
    (h : fourInLineThrough b row col) : fourInLineAnywhere b := by
  obtain ⟨d, hd, r0, hr0, c0, hc0, hocc, _⟩ := h
  exact ⟨d, hd, r0, hr0, c0, hc0, hocc⟩

/-- A line of four in the bitboard with one more bit either passes through the new cell
or was already in the old bitboard. -/
theorem fourInLineAnywhere_or (b : Nat) (row col : Int) (hon : onBoard row col)
    (h : fourInLineAnywhere (b ||| 2 ^ cellIdx row col)) :
    fourInLineThrough (b ||| 2 ^ cellIdx row col) row col ∨ fourInLineAnywhere b := by
  obtain ⟨d, hd, r0, hr0, c0, hc0, hocc⟩ := h
  by_cases hthru : ∃ k ∈ List.range 4, lineCell r0 c0 d k = (row, col)
  · exact Or.inl ⟨d, hd, r0, hr0, c0, hc0, hocc, hthru⟩
  · right
    refine ⟨d, hd, r0, hr0, c0, hc0, ?_⟩
    intro k hk
    obtain ⟨hb, hbit⟩ := hocc k hk
    refine ⟨hb, ?_⟩
    rw [Nat.testBit_or, Nat.testBit_two_pow] at hbit
    have hne : cellIdx row col ≠ cellIdx (lineCell r0 c0 d k).1 (lineCell r0 c0 d k).2 := by
      intro he
      obtain ⟨e1, e2⟩ := cellIdx_inj_onBoard _ _ _ _ hon hb he
      exact hthru ⟨k, hk, Prod.ext e1.symm e2.symm⟩
    simpa [hne] using hbit

/-- C17: table lookup agrees with a full-board scan.  On a state reached from `NewGame`
by `Add` calls with player 0 or 1 in which player `p` has no four in a line anywhere,
after a successful `Add(p, col)` the result of `Win(p)` is the result of the naive check
that `p` holds some four consecutive on-board cells in a row, a column or a diagonal
anywhere on the board. -/
theorem C17_win_agrees_with_scan (g g' : Game) (p : Fin 2) (col : Int)
    (hr : Reachable g) (hno : ¬ fourInLineAnywhere (g.player p))
    (hadd : Add g (p.val : Int) col = .returned g' none) :
    Win g' (p.val : Int) = some (decide (fourInLineAnywhere (g'.player p))) := by
  have hinv := Inv_of_Reachable g hr
  have hp : (p.val : Int) = 0 ∨ (p.val : Int) = 1 := by
    have := p.isLt
    omega
  rcases Add_cases g g' p.val col none hinv.height_nonneg hp hadd with
    ⟨_, hne⟩ | ⟨p', c, hpp, rfl, h6, _, rfl⟩
  · exact absurd rfl hne
  · have hp' : p' = p := Fin.ext (by omega)
    subst hp'
    rw [Win_placed g p' c hinv h6]
    congr 1
    apply decide_eq_decide.2
    constructor
    · exact fourInLineThrough_anywhere _ _ _
    · intro hany
      have hb : (placed g p' c).player p' =
          g.player p' ||| 2 ^ cellIdx (g.colHeight c) c.val := by
        simp [placed]
      rw [hb] at hany ⊢
      rcases fourInLineAnywhere_or _ _ _ (placed_onBoard g c hinv h6) hany with h | h
      · exact h
      · exact absurd h hno

/-- Witness of C17: player 0 holds `(0,0)`, `(0,1)`, `(0,2)`, no four in a line yet, and
plays column 3. -/
theorem C17_win_agrees_with_scan_witness :
    Reachable threeInRow ∧ ¬ fourInLineAnywhere (threeInRow.player 0) ∧
    Add threeInRow ((0 : Fin 2).val : Int) 3 = .returned (placed threeInRow 0 3) none ∧
    Win (placed threeInRow 0 3) ((0 : Fin 2).val : Int) =
      some (decide (fourInLineAnywhere ((placed threeInRow 0 3).player 0))) :=
  ⟨threeInRow_reachable, by decide, Add_ok threeInRow 0 3 (by decide) (by decide),
    C17_win_agrees_with_scan threeInRow (placed threeInRow 0 3) 0 3 threeInRow_reachable
      (by decide) (Add_ok threeInRow 0 3 (by decide) (by decide))⟩

/-! ## Gravity -/

/-- C18: gravity invariant.  In every state reached from `NewGame` by `Add` calls with
player 0 or 1, a cell `(r,c)` of the board has its bit set in `player[0] OR player[1]`
exactly when `r < colHeight[c]`; hence right after a successful `Add` that places
`(h, col)` no cell above `(h, col)` in that column is occupied, and for either player a
vertical run of four on-board cells containing `(h, col)` is filled exactly when the
downward window `(h,col),(h-1,col),(h-2,col),(h-3,col)` is filled. -/
theorem C18_gravity (g : Game) (hr : Reachable g) :
    (∀ (r : Int) (c : Fin 7), 0 ≤ r → r < 6 →
      ((g.player 0 ||| g.player 1).testBit (cellIdx r c.val) = true ↔ r < g.colHeight c)) ∧
    (∀ (g' : Game) (p : Fin 2) (col : Int), Add g (p.val : Int) col = .returned g' none →
      ∃ c : Fin 7, (c.val : Int) = col ∧
        (∀ r : Int, g.colHeight c < r → r < 6 →
          (g'.player 0 ||| g'.player 1).testBit (cellIdx r col) = false) ∧
        (∀ q : Fin 2,
          (∃ r0 : Int, (∃ k : Nat, k < 4 ∧ r0 + k = g.colHeight c) ∧
            ∀ j : Nat, j < 4 → occupied (g'.player q) (r0 + j) col) ↔
          (∀ j : Nat, j < 4 → occupied (g'.player q) (g.colHeight c - j) col))) := by
  have hinv := Inv_of_Reachable g hr
  refine ⟨hinv.gravity, ?_⟩
  intro g' p col hadd
  have hp : (p.val : Int) = 0 ∨ (p.val : Int) = 1 := by
    have := p.isLt
    omega
  rcases Add_cases g g' p.val col none hinv.height_nonneg hp hadd with
    ⟨_, hne⟩ | ⟨p', c, _, rfl, h6, _, rfl⟩
  · exact absurd rfl hne
  · refine ⟨c, rfl, ?_, ?_⟩
    · intro r hlt hr6
      have h0 := hinv.height_nonneg c
      have hg := (Inv_placed g p' c hinv h6).gravity r c (by omega) hr6
      cases hb : ((placed g p' c).player 0 ||| (placed g p' c).player 1).testBit
          (cellIdx r c.val)
      · rfl
      · have := hg.1 hb
        simp only [placed, if_true] at this
        omega
    · intro q
      constructor
      · rintro ⟨r0, ⟨k, hk, hkh⟩, hocc⟩ j hj
        have hk3 : k = 3 := by
          by_contra hne
          refine placed_not_above g p' q c hinv h6 (r0 + 3) (by omega) ?_
          exact occupied_congr _ (by push_cast; rfl) rfl (hocc 3 (by decide))
        subst hk3
        exact occupied_congr _ (by omega) rfl (hocc (3 - j) (by omega))
      · intro hdown
        refine ⟨g.colHeight c - 3, ⟨3, by decide, by omega⟩, ?_⟩
        intro j hj
        exact occupied_congr _ (by omega) rfl (hdown (3 - j) (by omega))

/-- Witness of C18: the state with three pieces of player 0 in row 0, and player 1
dropping a piece on top of the one in column 0. -/
theorem C18_gravity_witness :
    Reachable threeInRow ∧
    (0 ≤ (1 : Int) ∧ (1 : Int) < 6 ∧
      ((threeInRow.player 0 ||| threeInRow.player 1).testBit (cellIdx 1 (0 : Fin 7).val) = true ↔
        1 < threeInRow.colHeight 0)) ∧
    (Add threeInRow ((1 : Fin 2).val : Int) 0 = .returned (placed threeInRow 1 0) none ∧
      ∃ c : Fin 7, (c.val : Int) = 0 ∧
        (∀ r : Int, threeInRow.colHeight c < r → r < 6 →
          ((placed threeInRow 1 0).player 0 ||| (placed threeInRow 1 0).player 1).testBit
            (cellIdx r 0) = false) ∧
        (∀ q : Fin 2,
          (∃ r0 : Int, (∃ k : Nat, k < 4 ∧ r0 + k = threeInRow.colHeight c) ∧
            ∀ j : Nat, j < 4 → occupied ((placed threeInRow 1 0).player q) (r0 + j) 0) ↔
          (∀ j : Nat, j < 4 →
            occupied ((placed threeInRow 1 0).player q) (threeInRow.colHeight c - j) 0))) :=
  ⟨threeInRow_reachable,
    ⟨by decide, by decide,
      (C18_gravity threeInRow threeInRow_reachable).1 1 0 (by decide) (by decide)⟩,
    Add_ok threeInRow 1 0 (by decide) (by decide),
    (C18_gravity threeInRow threeInRow_reachable).2 (placed threeInRow 1 0) 1 0
      (Add_ok threeInRow 1 0 (by decide) (by decide))⟩

/-! ## Safety of the lookup -/

set_option maxRecDepth 1000000 in
theorem Win_NewGame : Win NewGame 0 = some false ∧ Win NewGame 1 = some false :=
  ⟨by rfl, by rfl⟩

/-- C19: in every state reached from `NewGame` by `Add` calls with player 0 or 1, the new
game included, `last` is in `[0,42)`, the lookup `winSet[g.last]` is in range, and
`Win(player)` returns a boolean for player 0 and for player 1; on the new game `Win`
returns false for both players. -/
theorem C19_win_lookup_safe (g : Game) (hr : Reachable g) :
    (0 ≤ g.last ∧ g.last < 42) ∧
    (∃ entry, winSet.get? g.last.toNat = some entry) ∧
    (∀ p : Fin 2, ∃ b, Win g (p.val : Int) = some b) ∧
    Win NewGame 0 = some false ∧ Win NewGame 1 = some false := by
  have hl := (Inv_of_Reachable g hr).last_range
  have hget := winSet_get_lt g.last.toNat (by omega)
  refine ⟨hl, ⟨_, hget⟩, ?_, Win_NewGame⟩
  intro p
  unfold Win
  rw [if_neg (by omega), hget]
  exact ⟨_, winLoop_eq g p _⟩

/-- Witness of C19: the new game itself. -/
theorem C19_win_lookup_safe_witness :
    Reachable NewGame ∧ (0 ≤ NewGame.last ∧ NewGame.last < 42) ∧
    (∃ entry, winSet.get? NewGame.last.toNat = some entry) ∧
    (∀ p : Fin 2, ∃ b, Win NewGame (p.val : Int) = some b) ∧
    Win NewGame 0 = some false ∧ Win NewGame 1 = some false :=
  ⟨Reachable.init, C19_win_lookup_safe NewGame Reachable.init⟩

/-! ## Exact range of the entry sizes -/

set_option maxRecDepth 1000000 in
theorem winsAt_vert_check : ∀ (r : Fin 6) (c : Fin 7),
    (winsAt (r.val : Int) (c.val : Int)).any isVertMask = decide (3 ≤ r.val) := by
  intro r c
  fin_cases r <;> fin_cases c <;> rfl

theorem bmVert_ok_iff (r : Fin 6) (c : Fin 7) :
    (∃ m, bmVert (r.val : Int) (c.val : Int) = .ok m) ↔ 3 ≤ r.val := by
  have hr := r.isLt
  have hc := c.isLt
  rw [bmVert_eq]
  constructor
  · rintro ⟨m, hm⟩
    have h3 := ((bmLoop_ok_iff _ m).1 hm).1 3 (by decide)
    unfold onBoard at h3
    dsimp only at h3
    push_cast at h3
    omega
  · intro h3
    refine ⟨_, bmLoop_ok _ ?_⟩
    intro i hi
    unfold onBoard
    dsimp only
    omega

set_option maxRecDepth 1000000 in
/-- C20: every one of the 42 entries of the table built by `genWins` holds at least 2 and
at most 11 masks; the entry of `(0,0)` has exactly 2 (one horizontal, one
rising-diagonal) and the entry of `(3,3)` has exactly 11; an entry contains a vertical
mask exactly when its row is at least 3. -/
theorem C20_entry_size_range :
    (∀ (r : Fin 6) (c : Fin 7), ∃ entry,
      winSet.get? (posnIndex (r.val : Int) (c.val : Int)).toNat = some entry ∧
      2 ≤ entry.length ∧ entry.length ≤ 11 ∧
      ((∃ m ∈ entry, isVertMask m = true) ↔ 3 ≤ r.val) ∧
      ((∃ m ∈ entry, bmVert (r.val : Int) (c.val : Int) = .ok m) ↔ 3 ≤ r.val)) ∧
    (∃ mh md, bmHorz 0 0 = .ok mh ∧ bmDiag0 0 0 = .ok md ∧
      winSet.get? (posnIndex 0 0).toNat = some [mh, md]) ∧
    (∃ entry, winSet.get? (posnIndex 3 3).toNat = some entry ∧ entry.length = 11) := by
  refine ⟨?_, ⟨_, _, by rfl, by rfl, by rfl⟩, ⟨winsAt 3 3, by rfl, by rfl⟩⟩
  intro r c
  refine ⟨winsAt (r.val : Int) (c.val : Int), by rw [posnIndex_fin]; exact winSet_entry r c,
    (winsAt_length_bounds r c).1, (winsAt_length_bounds r c).2, ?_, ?_⟩
  · have h := winsAt_vert_check r c
    rw [← List.any_eq_true, h, decide_eq_true_eq]
  · rw [← bmVert_ok_iff r c]
    constructor
    · rintro ⟨m, _, hm⟩
      exact ⟨m, hm⟩
    · rintro ⟨m, hm⟩
      exact ⟨m, (mem_winsAt _ _ m).2 (Or.inr (Or.inl hm)), hm⟩

end CF
